import Mathlib

/-!
Verification of the dnscrape repository against its design specification.

The development shallowly embeds the algorithmic core of the repository:

* `download_pdf` (shadow_scraper.py, lines 256-331): the content-addressed
  download cache with its MD5 sidecar files;
* `findInChildren` (shadow_scraper.py, lines 146-192): the recursive
  shadow-root traversal with an identity-keyed visited set;
* the link-discovery and merge logic of `run` (shadow_scraper.py,
  lines 741-819);
* the pagination loop of `run` (shadow_scraper.py, lines 637-854);
* `concatenate_metadata_files` (organize_pdfs.py, lines 29-66).

File contents are modelled as `String`, the file system as a partial map
from paths to contents, the MD5 function as an abstract parameter, and the
single HTTP request performed by `download_pdf` as an `Except` value.
-/

namespace DnScrape

/-! ### The content store: `download_pdf` -/

/-- Sanitization of a single character, from
`c if c.isalnum() or c in ('.', '_', '-') else '_'` in shadow_scraper.py. -/
def pySanitizeChar (c : Char) : Char :=
  if c.isAlphanum ∨ c = '.' ∨ c = '_' ∨ c = '-' then c else '_'

/-- Filename sanitization performed by `download_pdf`. -/
def sanitize (s : String) : String :=
  ⟨s.data.map pySanitizeChar⟩

/-- Model of `os.path.basename` on POSIX: the part after the last slash. -/
def basename (s : String) : String :=
  ⟨(s.data.reverse.takeWhile (· ≠ '/')).reverse⟩

/-- Model of Python's `str.strip()`: drop whitespace from both ends. -/
def pyStrip (s : String) : String :=
  ⟨((s.data.dropWhile Char.isWhitespace).reverse.dropWhile Char.isWhitespace).reverse⟩

/-- Truncation of a string to its first `k` characters, modelling a write
that was interrupted after `k` characters. -/
def strTake (s : String) (k : Nat) : String :=
  ⟨s.data.take k⟩

/-- The store directory, `DOCS_DIR = "docs"`. -/
def DOCS_DIR : String := "docs"

/-- Path of the sanitized target file inside the store,
`os.path.join(self.DOCS_DIR, safe_filename)`. -/
def targetPath (filename : String) : String :=
  DOCS_DIR ++ "/" ++ sanitize (basename filename)

/-- Path of the digest sidecar, `filepath + ".md5"`. -/
def md5Path (filename : String) : String :=
  targetPath filename ++ ".md5"

/-- Environment of one `download_pdf` call: the digest function, the outcome
of the single `requests.get` (error, or status code and body), and the write
outcome per path (`none` = success, `some k` = IOError after `k` characters
have been written). -/
structure DLEnv where
  md5 : String → String
  net : Except Unit (Nat × String)
  wr : String → Option Nat

/-- Result of a `download_pdf` call: the returned value (`none` models
Python `None`), the file system afterwards, and the number of HTTP requests
performed. -/
structure DLResult where
  ret : Option String
  fs : String → Option String
  netCount : Nat

/-- Pointwise update of the file-system map. -/
def fsUpdate (fs : String → Option String) (p v : String) : String → Option String :=
  fun q => if q = p then some v else fs q

/-- Persisting the sidecar (lines 319-322), indexed by the outcome of the
sidecar write: on success the digest is returned; an `IOError` after `k`
characters leaves a truncated sidecar and returns `None`. -/
def writeSide (fs1 : String → Option String) (md5fp hmd : String) :
    Option Nat → DLResult
  | some k => ⟨none, fsUpdate fs1 md5fp (strTake hmd k), 1⟩
  | none => ⟨some hmd, fsUpdate fs1 md5fp hmd, 1⟩

/-- Streaming the body to the target file (lines 313-325), indexed by the
outcome of the file write: an `IOError` after `k` characters leaves a
truncated file and returns `None`; on success the digest of the on-disk
bytes is computed, and (only when non-empty) the sidecar is written. -/
def writeFile (env : DLEnv) (fs : String → Option String)
    (filepath md5fp body : String) : Option Nat → DLResult
  | some k => ⟨none, fsUpdate fs filepath (strTake body k), 1⟩
  | none =>
    let fs1 := fsUpdate fs filepath body
    let hmd := env.md5 body
    if hmd = "" then
      ⟨some hmd, fs1, 1⟩
    else
      writeSide fs1 md5fp hmd (env.wr md5fp)

/-- The fetch part of `download_pdf` (lines 301-331), indexed by the outcome
of the single `requests.get`: a transport error or a status of 400 and above
is caught and yields `None` with the store untouched. -/
def doFetchNet (env : DLEnv) (fs : String → Option String) (filepath md5fp : String) :
    Except Unit (Nat × String) → DLResult
  | .error _ => ⟨none, fs, 1⟩
  | .ok (status, body) =>
    if 400 ≤ status then
      ⟨none, fs, 1⟩
    else
      writeFile env fs filepath md5fp body (env.wr filepath)

/-- The fetch part of `download_pdf`, applied to the environment's request
outcome. -/
def doFetch (env : DLEnv) (fs : String → Option String) (filepath md5fp : String) :
    DLResult :=
  doFetchNet env fs filepath md5fp env.net

/-- Cache check of `download_pdf` (lines 280-299), indexed by the current
store entries for the target file and sidecar: a hit returns the stored
digest with zero requests, every other case falls through to the fetch. -/
def cacheCheck (env : DLEnv) (fs : String → Option String) (filename : String) :
    Option String → Option String → DLResult
  | some content, some sidecar =>
    if env.md5 content ≠ "" ∧ pyStrip sidecar ≠ "" ∧ env.md5 content = pyStrip sidecar then
      ⟨some (env.md5 content), fs, 0⟩
    else
      doFetch env fs (targetPath filename) (md5Path filename)
  | _, _ => doFetch env fs (targetPath filename) (md5Path filename)

/-- Model of `download_pdf` (shadow_scraper.py lines 256-331). -/
def download_pdf (env : DLEnv) (fs : String → Option String) (filename : String) :
    DLResult :=
  cacheCheck env fs filename (fs (targetPath filename)) (fs (md5Path filename))

@[simp]
theorem writeSide_some (fs1 : String → Option String) (md5fp hmd : String) (k : Nat) :
    writeSide fs1 md5fp hmd (some k) = ⟨none, fsUpdate fs1 md5fp (strTake hmd k), 1⟩ := rfl

@[simp]
theorem writeSide_none (fs1 : String → Option String) (md5fp hmd : String) :
    writeSide fs1 md5fp hmd none = ⟨some hmd, fsUpdate fs1 md5fp hmd, 1⟩ := rfl

@[simp]
theorem writeFile_some (env : DLEnv) (fs : String → Option String)
    (filepath md5fp body : String) (k : Nat) :
    writeFile env fs filepath md5fp body (some k) =
      ⟨none, fsUpdate fs filepath (strTake body k), 1⟩ := rfl

@[simp]
theorem writeFile_none (env : DLEnv) (fs : String → Option String)
    (filepath md5fp body : String) :
    writeFile env fs filepath md5fp body none =
      (if env.md5 body = "" then ⟨some (env.md5 body), fsUpdate fs filepath body, 1⟩
       else writeSide (fsUpdate fs filepath body) md5fp (env.md5 body)
         (env.wr md5fp)) := rfl

@[simp]
theorem doFetchNet_error (env : DLEnv) (fs : String → Option String)
    (filepath md5fp : String) (e : Unit) :
    doFetchNet env fs filepath md5fp (.error e) = ⟨none, fs, 1⟩ := rfl

@[simp]
theorem doFetchNet_ok (env : DLEnv) (fs : String → Option String)
    (filepath md5fp : String) (status : Nat) (body : String) :
    doFetchNet env fs filepath md5fp (.ok (status, body)) =
      (if 400 ≤ status then ⟨none, fs, 1⟩
       else writeFile env fs filepath md5fp body (env.wr filepath)) := rfl

theorem cacheCheck_some_some (env : DLEnv) (fs : String → Option String)
    (filename content sidecar : String) :
    cacheCheck env fs filename (some content) (some sidecar) =
      (if env.md5 content ≠ "" ∧ pyStrip sidecar ≠ "" ∧ env.md5 content = pyStrip sidecar
       then ⟨some (env.md5 content), fs, 0⟩
       else doFetch env fs (targetPath filename) (md5Path filename)) := rfl

theorem cacheCheck_none_left (env : DLEnv) (fs : String → Option String)
    (filename : String) (o : Option String) :
    cacheCheck env fs filename none o =
      doFetch env fs (targetPath filename) (md5Path filename) := by
  cases o <;> rfl

theorem cacheCheck_none_right (env : DLEnv) (fs : String → Option String)
    (filename : String) (o : Option String) :
    cacheCheck env fs filename o none =
      doFetch env fs (targetPath filename) (md5Path filename) := by
  cases o <;> rfl

/-- Cache-hit condition checked at the top of `download_pdf` (lines 280-288):
both files exist, both digests are non-empty, and they agree. -/
def cacheHitP (env : DLEnv) (fs : String → Option String) (filename : String) : Prop :=
  ∃ content sidecar, fs (targetPath filename) = some content ∧
    fs (md5Path filename) = some sidecar ∧
    env.md5 content ≠ "" ∧ pyStrip sidecar ≠ "" ∧ env.md5 content = pyStrip sidecar

theorem md5Path_ne_targetPath (filename : String) :
    md5Path filename ≠ targetPath filename := by
  intro h
  have := congrArg String.length h
  rw [md5Path, String.length_append] at this
  have h4 : ".md5".length = 4 := rfl
  omega

theorem download_pdf_eq_hit (env : DLEnv) (fs : String → Option String)
    (filename content sidecar : String)
    (h1 : fs (targetPath filename) = some content)
    (h2 : fs (md5Path filename) = some sidecar)
    (hc : env.md5 content ≠ "" ∧ pyStrip sidecar ≠ "" ∧ env.md5 content = pyStrip sidecar) :
    download_pdf env fs filename = ⟨some (env.md5 content), fs, 0⟩ := by
  rw [download_pdf, h1, h2, cacheCheck_some_some]
  exact if_pos hc

theorem download_pdf_eq_miss (env : DLEnv) (fs : String → Option String)
    (filename content sidecar : String)
    (h1 : fs (targetPath filename) = some content)
    (h2 : fs (md5Path filename) = some sidecar)
    (hc : ¬(env.md5 content ≠ "" ∧ pyStrip sidecar ≠ "" ∧ env.md5 content = pyStrip sidecar)) :
    download_pdf env fs filename =
      doFetch env fs (targetPath filename) (md5Path filename) := by
  rw [download_pdf, h1, h2, cacheCheck_some_some]
  exact if_neg hc

theorem doFetch_success (env : DLEnv) (fs : String → Option String) (p q : String)
    (hq : q ≠ p) (hmd5 : ∀ b, env.md5 b ≠ "") (d : String)
    (h : (doFetch env fs p q).ret = some d) :
    ∃ body, env.md5 body = d ∧ (doFetch env fs p q).fs p = some body ∧
      (doFetch env fs p q).fs q = some d := by
  rcases hn : env.net with e | ⟨status, body⟩
  · rw [doFetch, hn, doFetchNet_error] at h
    simp at h
  · rw [doFetch, hn, doFetchNet_ok] at h ⊢
    by_cases hs : 400 ≤ status
    · rw [if_pos hs] at h
      simp at h
    · rw [if_neg hs] at h ⊢
      rcases hw : env.wr p with _ | k
      · rw [hw] at h
        rw [writeFile_none] at h ⊢
        have hz : env.md5 body ≠ "" := hmd5 body
        rw [if_neg hz] at h ⊢
        rcases hw2 : env.wr q with _ | k2
        · rw [hw2] at h
          rw [writeSide_none] at h ⊢
          simp only [Option.some.injEq] at h
          refine ⟨body, h, ?_, ?_⟩
          · simp [fsUpdate, Ne.symm hq]
          · simp [fsUpdate, h]
        · rw [hw2] at h
          rw [writeSide_some] at h
          simp at h
      · rw [hw] at h
        rw [writeFile_some] at h
        simp at h

/-- Claim C1.  If the sanitized target file and its digest sidecar both exist
and the freshly computed digest equals the stored digest, `download_pdf`
returns the stored digest with zero network requests and an unchanged store;
consequently, whenever a call returns a digest, an immediately following call
(with the same digest function, any network) returns the same digest with
zero network requests and leaves the store unchanged. -/
theorem download_pdf_idempotent_fetch (env : DLEnv) (fs : String → Option String)
    (filename : String)
    (hmd5 : ∀ b, env.md5 b ≠ "" ∧ pyStrip (env.md5 b) = env.md5 b) :
    (∀ content sidecar, fs (targetPath filename) = some content →
        fs (md5Path filename) = some sidecar →
        env.md5 content = pyStrip sidecar →
        download_pdf env fs filename = ⟨some (pyStrip sidecar), fs, 0⟩) ∧
    (∀ d, (download_pdf env fs filename).ret = some d →
        ∀ env₂ : DLEnv, env₂.md5 = env.md5 →
          download_pdf env₂ (download_pdf env fs filename).fs filename =
            ⟨some d, (download_pdf env fs filename).fs, 0⟩) := by
  constructor
  · intro content sidecar h1 h2 h3
    have hne : env.md5 content ≠ "" := (hmd5 content).1
    rw [download_pdf_eq_hit env fs filename content sidecar h1 h2
      ⟨hne, h3 ▸ hne, h3⟩, h3]
  · intro d hret env₂ hm
    rcases h1 : fs (targetPath filename) with _ | content
    all_goals rcases h2 : fs (md5Path filename) with _ | sidecar
    case some.some =>
      by_cases hc : env.md5 content ≠ "" ∧ pyStrip sidecar ≠ "" ∧
          env.md5 content = pyStrip sidecar
      · have hfix : download_pdf env fs filename = ⟨some (env.md5 content), fs, 0⟩ :=
          download_pdf_eq_hit env fs filename content sidecar h1 h2 hc
        rw [hfix] at hret ⊢
        have hd : d = env.md5 content := (Option.some_inj.mp hret).symm
        have := download_pdf_eq_hit env₂ fs filename content sidecar h1 h2
          (by rw [hm]; exact hc)
        rw [this, hm, hd]
      · have hfix : download_pdf env fs filename =
            doFetch env fs (targetPath filename) (md5Path filename) :=
          download_pdf_eq_miss env fs filename content sidecar h1 h2 hc
        rw [hfix] at hret ⊢
        obtain ⟨body, hb, hp, hq⟩ := doFetch_success env fs _ _
          (md5Path_ne_targetPath filename) (fun b => (hmd5 b).1) d hret
        have htrim : pyStrip d = d := by rw [← hb]; exact (hmd5 body).2
        have hdne : d ≠ "" := by rw [← hb]; exact (hmd5 body).1
        rw [download_pdf_eq_hit env₂ _ filename body d hp hq
          (by rw [hm, hb, htrim]; exact ⟨hdne, hdne, rfl⟩), hm, hb]
    all_goals {
      have hfix : download_pdf env fs filename =
          doFetch env fs (targetPath filename) (md5Path filename) := by
        rw [download_pdf, h1, h2]
        simp [cacheCheck]
      rw [hfix] at hret ⊢
      obtain ⟨body, hb, hp, hq⟩ := doFetch_success env fs _ _
        (md5Path_ne_targetPath filename) (fun b => (hmd5 b).1) d hret
      have htrim : pyStrip d = d := by rw [← hb]; exact (hmd5 body).2
      have hdne : d ≠ "" := by rw [← hb]; exact (hmd5 body).1
      rw [download_pdf_eq_hit env₂ _ filename body d hp hq
        (by rw [hm, hb, htrim]; exact ⟨hdne, hdne, rfl⟩), hm, hb]
    }

/-- Constant digest function used for concrete evaluations. -/
def md5W : String → String := fun _ => "deadbeef"

/-- Environment with a successful request, used for concrete evaluations. -/
def envW : DLEnv := ⟨md5W, .ok (200, "PDF"), fun _ => none⟩

/-- Store already holding the target file and a matching sidecar. -/
def fsHitW : String → Option String := fun q =>
  if q = "docs/a.pdf" then some "x"
  else if q = "docs/a.pdf.md5" then some "deadbeef"
  else none

/-- Witness for claim C1 at a concrete cached store: the call returns the
stored digest, performs zero requests and leaves the store unchanged. -/
theorem download_pdf_idempotent_fetch_witness :
    download_pdf envW fsHitW "a.pdf" = ⟨some "deadbeef", fsHitW, 0⟩ :=
  (download_pdf_idempotent_fetch envW fsHitW "a.pdf"
    (fun _ => ⟨show ("deadbeef" : String) ≠ "" by decide,
      show pyStrip "deadbeef" = "deadbeef" by decide⟩)).1 "x" "deadbeef"
    (by decide) (by decide) (by decide)

theorem download_pdf_not_hit (env : DLEnv) (fs : String → Option String)
    (filename : String) (h : ¬ cacheHitP env fs filename) :
    download_pdf env fs filename =
      doFetch env fs (targetPath filename) (md5Path filename) := by
  rw [download_pdf]
  rcases h1 : fs (targetPath filename) with _ | content
  · exact cacheCheck_none_left env fs filename _
  · rcases h2 : fs (md5Path filename) with _ | sidecar
    · exact cacheCheck_none_right env fs filename _
    · rw [cacheCheck_some_some, if_neg]
      intro hc
      exact h ⟨content, sidecar, h1, h2, hc.1, hc.2.1, hc.2.2⟩

theorem doFetch_cases (env : DLEnv) (fs : String → Option String) (p q : String) :
    (∃ e, env.net = .error e ∧ doFetch env fs p q = ⟨none, fs, 1⟩) ∨
    (∃ s b, env.net = .ok (s, b) ∧ 400 ≤ s ∧ doFetch env fs p q = ⟨none, fs, 1⟩) ∨
    (∃ s b k, env.net = .ok (s, b) ∧ s < 400 ∧ env.wr p = some k ∧
      doFetch env fs p q = ⟨none, fsUpdate fs p (strTake b k), 1⟩) ∨
    (∃ s b, env.net = .ok (s, b) ∧ s < 400 ∧ env.wr p = none ∧ env.md5 b = "" ∧
      doFetch env fs p q = ⟨some (env.md5 b), fsUpdate fs p b, 1⟩) ∨
    (∃ s b k, env.net = .ok (s, b) ∧ s < 400 ∧ env.wr p = none ∧ env.md5 b ≠ "" ∧
      env.wr q = some k ∧
      doFetch env fs p q =
        ⟨none, fsUpdate (fsUpdate fs p b) q (strTake (env.md5 b) k), 1⟩) ∨
    (∃ s b, env.net = .ok (s, b) ∧ s < 400 ∧ env.wr p = none ∧ env.md5 b ≠ "" ∧
      env.wr q = none ∧
      doFetch env fs p q =
        ⟨some (env.md5 b), fsUpdate (fsUpdate fs p b) q (env.md5 b), 1⟩) := by
  rcases hn : env.net with e | ⟨s, b⟩
  · exact Or.inl ⟨e, rfl, by rw [doFetch, hn, doFetchNet_error]⟩
  · by_cases hs : 400 ≤ s
    · exact Or.inr (Or.inl ⟨s, b, rfl, hs,
        by rw [doFetch, hn, doFetchNet_ok, if_pos hs]⟩)
    · have hs' : s < 400 := not_le.mp hs
      rcases hw : env.wr p with _ | k
      · by_cases hz : env.md5 b = ""
        · refine Or.inr (Or.inr (Or.inr (Or.inl ⟨s, b, rfl, hs', rfl, hz, ?_⟩)))
          rw [doFetch, hn, doFetchNet_ok, if_neg hs, hw, writeFile_none, if_pos hz]
        · rcases hw2 : env.wr q with _ | k2
          · refine Or.inr (Or.inr (Or.inr (Or.inr (Or.inr
              ⟨s, b, rfl, hs', rfl, hz, rfl, ?_⟩))))
            rw [doFetch, hn, doFetchNet_ok, if_neg hs, hw, writeFile_none,
              if_neg hz, hw2, writeSide_none]
          · refine Or.inr (Or.inr (Or.inr (Or.inr (Or.inl
              ⟨s, b, k2, rfl, hs', rfl, hz, rfl, ?_⟩))))
            rw [doFetch, hn, doFetchNet_ok, if_neg hs, hw, writeFile_none,
              if_neg hz, hw2, writeSide_some]
      · refine Or.inr (Or.inr (Or.inl ⟨s, b, k, rfl, hs', rfl, ?_⟩))
        rw [doFetch, hn, doFetchNet_ok, if_neg hs, hw, writeFile_some]

theorem fsUpdate_same (fs : String → Option String) (p v : String) :
    fsUpdate fs p v p = some v := by
  simp [fsUpdate]

theorem fsUpdate_other (fs : String → Option String) (p v q : String) (h : q ≠ p) :
    fsUpdate fs p v q = fs q := by
  simp [fsUpdate, h]

theorem doFetch_netCount (env : DLEnv) (fs : String → Option String) (p q : String) :
    (doFetch env fs p q).netCount = 1 := by
  rcases doFetch_cases env fs p q with ⟨e, _, h⟩ | ⟨s, b, _, _, h⟩ |
    ⟨s, b, k, _, _, _, h⟩ | ⟨s, b, _, _, _, _, h⟩ | ⟨s, b, k, _, _, _, _, _, h⟩ |
    ⟨s, b, _, _, _, _, _, h⟩ <;> rw [h]

/-- The empty store. -/
def fs0 : String → Option String := fun _ => none

/-- Environment whose single request fails with a transport error. -/
def envNetErrW : DLEnv := ⟨md5W, .error (), fun _ => none⟩

/-- Environment whose single request returns a non-success status. -/
def envBadStatusW : DLEnv := ⟨md5W, .ok (404, "nope"), fun _ => none⟩

/-- Environment in which writing the target file raises an IOError at once. -/
def envWriteErrW : DLEnv := ⟨md5W, .ok (200, "PDF"), fun _ => some 0⟩

/-- Claim C8 counterexample: a transport failure, a non-success status and a
local write failure all make `download_pdf` return the same value `None`,
so the three failure kinds are not distinguishable by the caller. -/
theorem download_pdf_failures_same_signal :
    (download_pdf envNetErrW fs0 "a.pdf").ret = none ∧
    (download_pdf envBadStatusW fs0 "a.pdf").ret = none ∧
    (download_pdf envWriteErrW fs0 "a.pdf").ret = none ∧
    (download_pdf envNetErrW fs0 "a.pdf").ret =
      (download_pdf envBadStatusW fs0 "a.pdf").ret ∧
    (download_pdf envBadStatusW fs0 "a.pdf").ret =
      (download_pdf envWriteErrW fs0 "a.pdf").ret :=
  ⟨rfl, rfl, rfl, rfl, rfl⟩

/-- Claim C8 (amended): `download_pdf` performs at most one HTTP request per
call (no automatic retry), and on a cache miss each of the three failure
kinds — transport failure, non-success status, and local write failure
(target file or sidecar) — returns the same failure signal `None`; the
kinds are distinguished only in the log output, not in the return value. -/
theorem download_pdf_failure_signals (env : DLEnv) (fs : String → Option String)
    (filename : String) :
    (download_pdf env fs filename).netCount ≤ 1 ∧
    (¬ cacheHitP env fs filename →
      ((∀ e, env.net = .error e → (download_pdf env fs filename).ret = none) ∧
       (∀ s b, env.net = .ok (s, b) → 400 ≤ s →
         (download_pdf env fs filename).ret = none) ∧
       (∀ s b k, env.net = .ok (s, b) → s < 400 →
         env.wr (targetPath filename) = some k →
         (download_pdf env fs filename).ret = none) ∧
       (∀ s b k, env.net = .ok (s, b) → s < 400 →
         env.wr (targetPath filename) = none → env.md5 b ≠ "" →
         env.wr (md5Path filename) = some k →
         (download_pdf env fs filename).ret = none))) := by
  constructor
  · by_cases h : cacheHitP env fs filename
    · obtain ⟨content, sidecar, h1, h2, hc1, hc2, hc3⟩ := h
      rw [download_pdf_eq_hit env fs filename content sidecar h1 h2 ⟨hc1, hc2, hc3⟩]
      exact Nat.zero_le 1
    · rw [download_pdf_not_hit env fs filename h, doFetch_netCount]
  · intro hmiss
    rw [download_pdf_not_hit env fs filename hmiss]
    refine ⟨?_, ?_, ?_, ?_⟩
    · intro e hn
      rw [doFetch, hn, doFetchNet_error]
    · intro s b hn hs
      rw [doFetch, hn, doFetchNet_ok, if_pos hs]
    · intro s b k hn hs hw
      rw [doFetch, hn, doFetchNet_ok, if_neg (not_le.mpr hs), hw, writeFile_some]
    · intro s b k hn hs hw hz hw2
      rw [doFetch, hn, doFetchNet_ok, if_neg (not_le.mpr hs), hw, writeFile_none,
        if_neg hz, hw2, writeSide_some]

/-- Witness for the amended claim C8 at a concrete environment with a write
failure: at most one request is made and `None` is returned. -/
theorem download_pdf_failure_signals_witness :
    (download_pdf envWriteErrW fs0 "a.pdf").netCount ≤ 1 ∧
    (download_pdf envWriteErrW fs0 "a.pdf").ret = none := by
  have h := download_pdf_failure_signals envWriteErrW fs0 "a.pdf"
  refine ⟨h.1, ?_⟩
  have hmiss : ¬ cacheHitP envWriteErrW fs0 "a.pdf" := by
    rintro ⟨c, sc, hc, -⟩
    exact Option.noConfusion hc
  exact (h.2 hmiss).2.2.1 200 "PDF" 0 rfl (by decide) rfl

/-- Claim C10.  The sidecar entry changes only when a success status was
received and the full body was written to the target file; and whenever
`download_pdf` returns the failure signal `None`, the resulting store does
not satisfy the cache-hit condition, so a partial or failed download is
never validated as a cache hit by a later call.  The two hypotheses state
the claim's assumption that a truncated write differs in digest from any
previously stored digest, and that a truncated sidecar does not spell the
full digest. -/
theorem download_pdf_sidecar_safety (env : DLEnv) (fs : String → Option String)
    (filename : String)
    (hPartWrite : ∀ s b, env.net = .ok (s, b) → ∀ k,
      env.wr (targetPath filename) = some k → ∀ oldside,
      fs (md5Path filename) = some oldside →
      env.md5 (strTake b k) ≠ pyStrip oldside)
    (hsidetrunc : ∀ s b, env.net = .ok (s, b) → ∀ k,
      env.wr (md5Path filename) = some k →
      pyStrip (strTake (env.md5 b) k) ≠ env.md5 b) :
    ((download_pdf env fs filename).fs (md5Path filename) ≠ fs (md5Path filename) →
      ∃ s b, env.net = .ok (s, b) ∧ s < 400 ∧
        env.wr (targetPath filename) = none ∧
        (download_pdf env fs filename).fs (targetPath filename) = some b) ∧
    ((download_pdf env fs filename).ret = none →
      ¬ cacheHitP env ((download_pdf env fs filename).fs) filename) := by
  have hne := md5Path_ne_targetPath filename
  by_cases hhit : cacheHitP env fs filename
  · obtain ⟨content, sidecar, h1, h2, hc1, hc2, hc3⟩ := hhit
    rw [download_pdf_eq_hit env fs filename content sidecar h1 h2 ⟨hc1, hc2, hc3⟩]
    exact ⟨fun hch => absurd rfl hch, fun hr => Option.noConfusion hr⟩
  · rw [download_pdf_not_hit env fs filename hhit]
    rcases doFetch_cases env fs (targetPath filename) (md5Path filename) with
      ⟨e, hn, h⟩ | ⟨s, b, hn, hs, h⟩ | ⟨s, b, k, hn, hs, hw, h⟩ |
      ⟨s, b, hn, hs, hw, hz, h⟩ | ⟨s, b, k, hn, hs, hw, hz, hw2, h⟩ |
      ⟨s, b, hn, hs, hw, hz, hw2, h⟩
    · rw [h]
      exact ⟨fun hch => absurd rfl hch, fun _ => hhit⟩
    · rw [h]
      exact ⟨fun hch => absurd rfl hch, fun _ => hhit⟩
    · rw [h]
      constructor
      · intro hch
        exact absurd (fsUpdate_other fs _ _ _ hne) hch
      · rintro - ⟨content, sidecar, hc1, hc2, -, -, hc3⟩
        simp only [fsUpdate_same] at hc1
        simp only [fsUpdate_other fs _ _ _ hne] at hc2
        exact hPartWrite s b hn k hw sidecar hc2
          (by rw [← Option.some_inj.mp hc1] at hc3; exact hc3)
    · rw [h]
      constructor
      · intro hch
        exact absurd (fsUpdate_other fs _ _ _ hne) hch
      · intro hr
        simp at hr
    · rw [h]
      constructor
      · intro hch
        refine ⟨s, b, hn, hs, hw, ?_⟩
        simp only [fsUpdate_other _ _ _ _ (Ne.symm hne), fsUpdate_same]
      · rintro - ⟨content, sidecar, hc1, hc2, -, -, hc3⟩
        simp only [fsUpdate_other _ _ _ _ (Ne.symm hne), fsUpdate_same] at hc1
        simp only [fsUpdate_same] at hc2
        rw [← Option.some_inj.mp hc1] at hc3
        rw [← Option.some_inj.mp hc2] at hc3
        exact hsidetrunc s b hn k hw2 hc3.symm
    · rw [h]
      constructor
      · intro hch
        refine ⟨s, b, hn, hs, hw, ?_⟩
        simp only [fsUpdate_other _ _ _ _ (Ne.symm hne), fsUpdate_same]
      · intro hr
        simp at hr

/-- Environment for the claim C10 witness: success status, write failure on
the target file. -/
def envC10 : DLEnv := ⟨md5W, .ok (200, "PDF"), fun p =>
  if p = "docs/a.pdf" then some 0 else none⟩

/-- Witness for claim C10: with an empty store and a failing target write,
the failed call leaves a store that is not a cache hit. -/
theorem download_pdf_sidecar_safety_witness :
    ¬ cacheHitP envC10 ((download_pdf envC10 fs0 "a.pdf").fs) "a.pdf" :=
  (download_pdf_sidecar_safety envC10 fs0 "a.pdf"
    (fun _ _ _ _ _ _ ho => Option.noConfusion ho)
    (fun _ _ _ _ hk => Option.noConfusion hk)).2 rfl

/-! ### Metadata recombination: `concatenate_metadata_files` in organize_pdfs.py -/

/-- Parse outcome of one metadata file, as distinguished by
`load_metadata_file` (organize_pdfs.py lines 10-27): missing file, JSON
decode error, a JSON array of records, a single JSON object, or any other
JSON value. -/
inductive MetaFile (α : Type) where
  | missing : MetaFile α
  | badJson : MetaFile α
  | jlist : List α → MetaFile α
  | jdict : α → MetaFile α
  | other : MetaFile α

/-- Model of `load_metadata_file`: a list is returned as is, a single object
is wrapped in a one-element list, every failure case yields `[]`. -/
def load_metadata_file {α : Type} : MetaFile α → List α
  | .missing => []
  | .badJson => []
  | .jlist rs => rs
  | .jdict r => [r]
  | .other => []

/-- One iteration of the concatenation loop (lines 52-57): extend the
accumulator only when the loaded list is non-empty. -/
def concatStep {α : Type} (all : List α) (f : MetaFile α) : List α :=
  if (load_metadata_file f).isEmpty then all else all ++ load_metadata_file f

/-- Model of `concatenate_metadata_files` (organize_pdfs.py lines 29-66)
applied to the found per-page files: with no files found the function
returns without writing (`none`); otherwise the combined list is written. -/
def concatenate_metadata_files {α : Type} (files : List (MetaFile α)) :
    Option (List α) :=
  if files.isEmpty then none
  else some (files.foldl concatStep [])

theorem concat_foldl {α : Type} (files : List (MetaFile α)) :
    ∀ acc : List α,
      files.foldl concatStep acc = acc ++ (files.map load_metadata_file).flatten := by
  induction files with
  | nil => intro acc; simp
  | cons f fs ih =>
    intro acc
    simp only [List.foldl_cons, List.map_cons, List.flatten, ih, concatStep]
    by_cases h : (load_metadata_file f).isEmpty
    · rw [if_pos h, List.isEmpty_iff.mp h]
      simp
    · rw [if_neg h]
      simp

theorem map_load_jlist {α : Type} (rss : List (List α)) :
    (rss.map MetaFile.jlist).map load_metadata_file = rss := by
  induction rss with
  | nil => rfl
  | cons a l ih => simp [ih, load_metadata_file]

/-- Claim C9.  Running the recombination utility over `N` well-formed
per-page metadata files (each a JSON array of records) writes one combined
output containing exactly the concatenation of the inputs: `s1+...+sN`
records, every record preserved and none lost or duplicated. -/
theorem concatenate_metadata_files_union {α : Type} (rss : List (List α))
    (h : rss ≠ []) :
    concatenate_metadata_files (rss.map MetaFile.jlist) = some rss.flatten ∧
    rss.flatten.length = (rss.map List.length).sum := by
  constructor
  · rw [concatenate_metadata_files, if_neg (by simpa using h), concat_foldl,
      map_load_jlist]
    simp
  · simp [List.length_flatten]

/-- Witness for claim C9 on two concrete pages with two and one records. -/
theorem concatenate_metadata_files_union_witness :
    concatenate_metadata_files ([[1, 2], [3]].map MetaFile.jlist) =
      some ([1, 2, 3] : List Nat) :=
  (concatenate_metadata_files_union [[1, 2], [3]] (by decide)).1

/-! ### The pagination loop of `run` (shadow_scraper.py lines 624-865) -/

/-- Reason for which the crawl loop reached its terminal state. -/
inductive StopReason where
  | driverFail : StopReason
  | maxPagesHit : StopReason
  | noResultsFirstPage : StopReason
  | endOfResults : StopReason
  | noNewArticles : StopReason
deriving DecidableEq

/-- New article URLs contributed by one results page: items with a parsed
URL (line 692-703) that is not in the processed set (line 706). -/
def pageNewUrls (items : List (Option String)) (processed : List String) :
    List String :=
  (items.filterMap id).filter (fun u => !(processed.contains u))

/-- The pagination loop (lines 642-854).  A results page is a list of
result items, each carrying its parsed article URL (or `none`).  The fuel
argument only bounds the structural recursion; `runCrawl` supplies enough
fuel that the `0` case is never reached.  Returned are the stop reason, the
page number at the stop, and the processed URLs. -/
def crawlLoopF (pages : Nat → List (Option String)) (maxPages : Nat) :
    Nat → Nat → List String → StopReason × Nat × List String
  | 0, page_num, processed => (.maxPagesHit, page_num, processed)
  | fuel + 1, page_num, processed =>
    if maxPages < page_num then
      (.maxPagesHit, page_num, processed)
    else
      if (pages page_num).isEmpty then
        if page_num = 1 then (.noResultsFirstPage, page_num, processed)
        else (.endOfResults, page_num, processed)
      else
        if (pageNewUrls (pages page_num) processed).isEmpty ∧ 1 < page_num then
          (.noNewArticles, page_num,
            processed ++ pageNewUrls (pages page_num) processed)
        else
          crawlLoopF pages maxPages fuel (page_num + 1)
            (processed ++ pageNewUrls (pages page_num) processed)

/-- The crawl entry point: with no driver the run exits before any page
(line 638-640); otherwise pagination starts at page 1 with no processed
URLs. -/
def runCrawl (driverOk : Bool) (pages : Nat → List (Option String))
    (maxPages : Nat) : StopReason × Nat × List String :=
  if driverOk then crawlLoopF pages maxPages (maxPages + 1) 1 []
  else (.driverFail, 0, [])

theorem crawlLoopF_spec (pages : Nat → List (Option String)) (maxPages : Nat) :
    ∀ fuel page processed, maxPages + 1 ≤ fuel + page → 1 ≤ page →
    ∀ r p pr, crawlLoopF pages maxPages fuel page processed = (r, p, pr) →
      ((r = .maxPagesHit → maxPages < p) ∧
       (r = .noResultsFirstPage → p = 1 ∧ (pages 1).isEmpty = true) ∧
       (r = .endOfResults → 1 < p ∧ (pages p).isEmpty = true) ∧
       (r = .noNewArticles → 1 < p ∧ (pages p).isEmpty = false ∧
         pageNewUrls (pages p) pr = []) ∧
       (r = .maxPagesHit ∨ r = .noResultsFirstPage ∨ r = .endOfResults ∨
         r = .noNewArticles)) := by
  intro fuel
  induction fuel with
  | zero =>
    intro page processed had hp r p pr heq
    rw [crawlLoopF] at heq
    simp only [Prod.mk.injEq] at heq
    obtain ⟨rfl, rfl, rfl⟩ := heq
    refine ⟨fun _ => by omega, ?_, ?_, ?_, Or.inl rfl⟩
    all_goals exact fun h => absurd h (by decide)
  | succ fuel ih =>
    intro page processed had hp r p pr heq
    rw [crawlLoopF] at heq
    by_cases h1 : maxPages < page
    · rw [if_pos h1] at heq
      simp only [Prod.mk.injEq] at heq
      obtain ⟨rfl, rfl, rfl⟩ := heq
      refine ⟨fun _ => h1, ?_, ?_, ?_, Or.inl rfl⟩
      all_goals exact fun h => absurd h (by decide)
    · rw [if_neg h1] at heq
      by_cases h2 : (pages page).isEmpty
      · rw [if_pos h2] at heq
        by_cases h3 : page = 1
        · rw [if_pos h3] at heq
          simp only [Prod.mk.injEq] at heq
          obtain ⟨rfl, rfl, rfl⟩ := heq
          refine ⟨?_, fun _ => ⟨h3, h3 ▸ h2⟩, ?_, ?_, Or.inr (Or.inl rfl)⟩
          all_goals exact fun h => absurd h (by decide)
        · rw [if_neg h3] at heq
          simp only [Prod.mk.injEq] at heq
          obtain ⟨rfl, rfl, rfl⟩ := heq
          refine ⟨?_, ?_, fun _ => ⟨by omega, h2⟩, ?_, Or.inr (Or.inr (Or.inl rfl))⟩
          all_goals exact fun h => absurd h (by decide)
      · rw [if_neg h2] at heq
        by_cases h4 : (pageNewUrls (pages page) processed).isEmpty ∧ 1 < page
        · rw [if_pos h4] at heq
          simp only [Prod.mk.injEq] at heq
          obtain ⟨rfl, rfl, rfl⟩ := heq
          have hnil : pageNewUrls (pages page) processed = [] :=
            List.isEmpty_iff.mp h4.1
          refine ⟨?_, ?_, ?_,
            fun _ => ⟨h4.2, Bool.eq_false_iff.mpr h2, ?_⟩,
            Or.inr (Or.inr (Or.inr rfl))⟩
          · exact fun h => absurd h (by decide)
          · exact fun h => absurd h (by decide)
          · exact fun h => absurd h (by decide)
          · rw [hnil, List.append_nil]
            exact hnil
        · rw [if_neg h4] at heq
          exact ih (page + 1) (processed ++ pageNewUrls (pages page) processed)
            (by omega) (by omega) r p pr heq

/-- Claim C7 (amended).  The crawl loop reaches its terminal state exactly
under: (a) the page counter exceeding the configured maximum, (b) a results
page with zero result items (page 1 logged as no-results-at-all, later pages
as end-of-pagination), (c) driver initialization failure, or (d) a page
after the first whose result items yield no new unprocessed article URL
(line 847), which also terminates the loop. -/
theorem crawl_terminal_conditions (driverOk : Bool)
    (pages : Nat → List (Option String)) (maxPages : Nat) :
    (driverOk = false → runCrawl driverOk pages maxPages = (.driverFail, 0, [])) ∧
    (driverOk = true →
      ∀ r p pr, runCrawl driverOk pages maxPages = (r, p, pr) →
        ((r = .maxPagesHit → maxPages < p) ∧
         (r = .noResultsFirstPage → p = 1 ∧ (pages 1).isEmpty = true) ∧
         (r = .endOfResults → 1 < p ∧ (pages p).isEmpty = true) ∧
         (r = .noNewArticles → 1 < p ∧ (pages p).isEmpty = false ∧
           pageNewUrls (pages p) pr = []) ∧
         (r = .maxPagesHit ∨ r = .noResultsFirstPage ∨ r = .endOfResults ∨
           r = .noNewArticles))) := by
  constructor
  · intro h
    rw [runCrawl, h]
    rfl
  · intro h r p pr heq
    rw [runCrawl, h, if_pos rfl] at heq
    exact crawlLoopF_spec pages maxPages (maxPages + 1) 1 [] (by omega)
      (by omega) r p pr heq

/-- Pages for the claim C7 counterexample: pages 1 and 2 both list the same
article URL, later pages are empty. -/
def pagesC7 : Nat → List (Option String) := fun n =>
  if n = 1 then [some "u"] else if n = 2 then [some "u"] else []

/-- Claim C7 counterexample: with a page limit of 2, the loop stops on
page 2 with reason `noNewArticles`, although the page counter (2) does not
exceed the maximum (2), the page has a result item, and the driver is fine —
a terminal condition outside the claimed list (a)-(c). -/
theorem crawl_stops_outside_claimed_conditions :
    runCrawl true pagesC7 2 = (.noNewArticles, 2, ["u"]) ∧
    ¬ 2 > 2 ∧ pagesC7 2 ≠ [] ∧
    StopReason.noNewArticles ≠ .maxPagesHit ∧
    StopReason.noNewArticles ≠ .noResultsFirstPage ∧
    StopReason.noNewArticles ≠ .endOfResults ∧
    StopReason.noNewArticles ≠ .driverFail := by
  refine ⟨rfl, by decide, by decide, by decide, by decide, by decide, by decide⟩

/-- Witness for the amended claim C7: a failed driver initialization ends
the run with the `driverFail` reason and no page processed. -/
theorem crawl_terminal_conditions_witness :
    runCrawl false pagesC7 2 = (.driverFail, 0, []) :=
  (crawl_terminal_conditions false pagesC7 2).1 rfl

/-! ### Link discovery and merge in `run` (shadow_scraper.py lines 741-819) -/

/-- Lowercasing, modelling Python's `str.lower()` for the ASCII hrefs used
here. -/
def strToLower (s : String) : String :=
  ⟨s.data.map Char.toLower⟩

/-- Suffix test, modelling Python's `str.endswith`. -/
def strEndsWith (s suff : String) : Bool :=
  suff.data.isSuffixOf s.data

/-- Candidate link value as it flows through `run`: either a plain
dictionary (built at line 753, or returned by
`extract_pdf_links_from_custom_elements`) or a web-element handle.
`getHref` is the accessor the merge loop applies to both shapes
(`l.get('href')` / `l.get_attribute('href')`). -/
inductive PdfLink where
  | dictLink : Option String → PdfLink
  | elemLink : Option String → PdfLink
deriving DecidableEq

/-- Href of a candidate, as read by the merge loop (line 790). -/
def getHref : PdfLink → Option String
  | .dictLink h => h
  | .elemLink h => h

/-- One link record from the shadow-DOM analysis (`pdfLinks` of
`analyze_shadow_dom_structure`). -/
structure AnalyzedLink where
  href : Option String
  hasDownload : Bool
deriving DecidableEq

/-- Conversion of analyzed links into candidates (lines 749-758): kept when
the href is present and ends in `.pdf` (lowercased) or the link carries the
download marker. -/
def patternCandidates (ls : List AnalyzedLink) : List PdfLink :=
  ls.filterMap fun l =>
    match l.href with
    | some h =>
      if strEndsWith (strToLower h) ".pdf" ∨ l.hasDownload then
        some (.dictLink (some h))
      else none
    | none => none

/-- Inputs available to link discovery on one article page: the analyzed
shadow links, the regular-DOM query results, the per-selector shadow query
results (in selector order), and the custom-element links. -/
structure ArticlePage where
  analysis : List AnalyzedLink
  regular : List PdfLink
  shadow : List (List PdfLink)
  custom : List PdfLink

/-- First non-empty selector result (the `break` at line 780). -/
def firstNonEmpty : List (List PdfLink) → List PdfLink
  | [] => []
  | l :: ls => if l.isEmpty then firstNonEmpty ls else l

/-- The tiered fallback of lines 742-781: analysis candidates first; the
regular-DOM query only when they are empty; the shadow-selector queries only
when that is also empty, stopping at the first selector with results. -/
def selectPatternLinks (page : ArticlePage) : List PdfLink :=
  if (patternCandidates page.analysis).isEmpty then
    if page.regular.isEmpty then firstNonEmpty page.shadow
    else page.regular
  else patternCandidates page.analysis

/-- Whether the merge loop appends a custom link (lines 788-791): its href
must be present and not equal (as a raw string) to the href of any
already-collected candidate. -/
def keepCustom (all : List PdfLink) (link : PdfLink) : Bool :=
  match getHref link with
  | some href => !(all.any fun l => getHref l == some href)
  | none => false

/-- The merge loop of lines 784-791, iterating over the custom links with
the growing `all_pdf_links` accumulator. -/
def mergeLinks (all : List PdfLink) : List PdfLink → List PdfLink
  | [] => all
  | link :: rest =>
    mergeLinks (if keepCustom all link then all ++ [link] else all) rest

/-- Link discovery for one article page: pattern links (tiered fallback)
merged with the custom-element links. -/
def discoverLinks (page : ArticlePage) : List PdfLink :=
  mergeLinks (selectPatternLinks page) page.custom

/-- The final download gate of line 811:
`if pdf_href and pdf_href.lower().endswith(".pdf")`. -/
def acceptedForDownload (l : PdfLink) : Bool :=
  match getHref l with
  | some h => strEndsWith (strToLower h) ".pdf"
  | none => false

/-- The candidates that are actually passed to `download_pdf`. -/
def fetchedLinks (links : List PdfLink) : List PdfLink :=
  links.filter acceptedForDownload

/-- The site base URL (line 74). -/
def BASE_URL : String := "https://www.nationalbanken.dk"

/-- Model of `urllib.parse.urljoin(BASE_URL, href)` for the href shapes that
occur here: absolute URLs are kept, path-absolute references are joined onto
the site origin. -/
def resolveHref (href : String) : String :=
  if ("http".data).isPrefixOf href.data then href else BASE_URL ++ href

/-- Claim C3 counterexample.  The merge compares raw href strings, not
resolved absolute hrefs: an analysis candidate holding the absolutized URL
and a custom candidate holding the site-relative path of the same document
are both kept, so the merged set carries two entries with the same resolved
absolute href; and two pattern candidates with the identical href are never
deduplicated at all. -/
theorem merge_keeps_same_resolved_href :
    mergeLinks [.dictLink (some "https://www.nationalbanken.dk/f/a.pdf")]
        [.dictLink (some "/f/a.pdf")] =
      [.dictLink (some "https://www.nationalbanken.dk/f/a.pdf"),
       .dictLink (some "/f/a.pdf")] ∧
    resolveHref "/f/a.pdf" = "https://www.nationalbanken.dk/f/a.pdf" ∧
    resolveHref "https://www.nationalbanken.dk/f/a.pdf" =
      "https://www.nationalbanken.dk/f/a.pdf" ∧
    mergeLinks [.dictLink (some "x.pdf"), .dictLink (some "x.pdf")] [] =
      [.dictLink (some "x.pdf"), .dictLink (some "x.pdf")] := by
  refine ⟨by decide, by decide, by decide, by decide⟩

theorem mergeLinks_spec (custom : List PdfLink) :
    ∀ all, ∃ rest, mergeLinks all custom = all ++ rest ∧
      (∀ c ∈ rest, c ∈ custom) ∧
      (∀ c ∈ rest, ∃ h, getHref c = some h ∧ ∀ l ∈ all, getHref l ≠ some h) ∧
      rest.Pairwise (fun a b => getHref a ≠ getHref b) := by
  induction custom with
  | nil =>
    intro all
    exact ⟨[], by simp [mergeLinks], by simp, by simp, List.Pairwise.nil⟩
  | cons link rest ih =>
    intro all
    rw [mergeLinks]
    by_cases hk : keepCustom all link
    · rw [if_pos hk]
      obtain ⟨href, hh, hnone⟩ : ∃ h, getHref link = some h ∧
          ∀ l ∈ all, getHref l ≠ some h := by
        revert hk
        rw [keepCustom]
        rcases hg : getHref link with _ | h
        · intro hk; exact absurd hk (by simp)
        · intro hk
          have hk' : (all.any fun l => getHref l == some h) = false := by
            simpa using hk
          refine ⟨h, rfl, ?_⟩
          intro l hl hle
          have hany : (all.any fun l => getHref l == some h) = true :=
            List.any_eq_true.mpr ⟨l, hl, by simp [hle]⟩
          rw [hany] at hk'
          exact Bool.noConfusion hk'
      obtain ⟨rest₁, heq, hmem, hfresh, hpw⟩ := ih (all ++ [link])
      refine ⟨link :: rest₁, by rw [heq, List.append_assoc]; rfl, ?_, ?_, ?_⟩
      · intro c hc
        rcases List.mem_cons.mp hc with rfl | hc
        · exact List.mem_cons_self c rest
        · exact List.mem_cons_of_mem link (hmem c hc)
      · intro c hc
        rcases List.mem_cons.mp hc with rfl | hc
        · exact ⟨href, hh, hnone⟩
        · obtain ⟨h, hch, hall⟩ := hfresh c hc
          exact ⟨h, hch, fun l hl => hall l (List.mem_append_left _ hl)⟩
      · refine List.Pairwise.cons ?_ hpw
        intro c hc
        obtain ⟨h, hch, hall⟩ := hfresh c hc
        have hlk : getHref link ≠ some h :=
          hall link (List.mem_append_right _ (List.mem_singleton.mpr rfl))
        rw [hch]
        intro hcon
        exact hlk hcon
    · rw [if_neg hk]
      obtain ⟨rest₁, heq, hmem, hfresh, hpw⟩ := ih all
      exact ⟨rest₁, heq, fun c hc => List.mem_cons_of_mem link (hmem c hc),
        hfresh, hpw⟩

/-- Claim C3 (amended).  The merge deduplicates by exact raw href string
only, first-seen-wins: the merged set is the pattern candidates (all of
them, duplicates included) followed by those custom candidates whose raw
href is present and differs from every pattern candidate's href; the
appended custom candidates have pairwise distinct hrefs.  Candidates whose
raw href strings differ are both kept even when they resolve to the same
absolute URL. -/
theorem mergeLinks_dedup_raw (pdfLinks custom : List PdfLink) :
    ∃ rest, mergeLinks pdfLinks custom = pdfLinks ++ rest ∧
      (∀ c ∈ rest, c ∈ custom) ∧
      (∀ c ∈ rest, ∃ h, getHref c = some h ∧ ∀ l ∈ pdfLinks, getHref l ≠ some h) ∧
      rest.Pairwise (fun a b => getHref a ≠ getHref b) :=
  mergeLinks_spec custom pdfLinks

/-- Witness for the amended claim C3 at concrete candidate lists. -/
theorem mergeLinks_dedup_raw_witness :
    ∃ rest, mergeLinks [PdfLink.dictLink (some "a.pdf")]
        [PdfLink.dictLink (some "a.pdf"), PdfLink.dictLink (some "b.pdf")] =
      [PdfLink.dictLink (some "a.pdf")] ++ rest ∧
      (∀ c ∈ rest,
        c ∈ [PdfLink.dictLink (some "a.pdf"), PdfLink.dictLink (some "b.pdf")]) ∧
      (∀ c ∈ rest, ∃ h, getHref c = some h ∧
        ∀ l ∈ [PdfLink.dictLink (some "a.pdf")], getHref l ≠ some h) ∧
      rest.Pairwise (fun a b => getHref a ≠ getHref b) :=
  mergeLinks_dedup_raw [PdfLink.dictLink (some "a.pdf")]
    [PdfLink.dictLink (some "a.pdf"), PdfLink.dictLink (some "b.pdf")]

/-- Article page for the claim C4 counterexample: the analysis strategy
finds a link, the regular-DOM and shadow queries would find others. -/
def pageC4 : ArticlePage where
  analysis := [⟨some "https://x/a.pdf", false⟩]
  regular := [.elemLink (some "https://x/r.pdf")]
  shadow := [[.elemLink (some "https://x/s.pdf")]]
  custom := []

/-- Claim C4 counterexample: the regular-DOM strategy found a `.pdf` link,
yet it does not appear in the merged candidate set, because the analysis
strategy already produced a candidate — the structural-pattern searches are
short-circuiting fallbacks, not unconditionally merged strategies. -/
theorem pattern_strategies_short_circuited :
    discoverLinks pageC4 = [.dictLink (some "https://x/a.pdf")] ∧
    PdfLink.elemLink (some "https://x/r.pdf") ∉ discoverLinks pageC4 ∧
    PdfLink.elemLink (some "https://x/s.pdf") ∉ discoverLinks pageC4 := by
  refine ⟨by decide, by decide, by decide⟩

theorem mergeLinks_mem_mono (custom : List PdfLink) :
    ∀ all c, c ∈ all → c ∈ mergeLinks all custom := by
  induction custom with
  | nil => intro all c hc; simpa [mergeLinks] using hc
  | cons link rest ih =>
    intro all c hc
    rw [mergeLinks]
    by_cases hk : keepCustom all link
    · rw [if_pos hk]
      exact ih _ c (List.mem_append_left _ hc)
    · rw [if_neg hk]
      exact ih _ c hc

theorem mergeLinks_custom_href (custom : List PdfLink) :
    ∀ all href, (∃ l ∈ custom, getHref l = some href) →
      ∃ c ∈ mergeLinks all custom, getHref c = some href := by
  induction custom with
  | nil => intro all href h; obtain ⟨l, hl, -⟩ := h; exact absurd hl (by simp)
  | cons link rest ih =>
    intro all href h
    rw [mergeLinks]
    obtain ⟨l, hl, hlh⟩ := h
    rcases List.mem_cons.mp hl with rfl | hl
    · by_cases hk : keepCustom all l
      · rw [if_pos hk]
        exact ⟨l, mergeLinks_mem_mono rest _ l
          (List.mem_append_right _ (List.mem_singleton.mpr rfl)), hlh⟩
      · rw [if_neg hk]
        rw [keepCustom, hlh] at hk
        simp only [Bool.not_eq_true, Bool.not_eq_false] at hk
        have hk2 : (all.any fun x => getHref x == some href) = true := by
          cases hb : all.any fun x => getHref x == some href
          · rw [hb] at hk
            exact Bool.noConfusion hk
          · rfl
        obtain ⟨m, hm, hmh⟩ := List.any_eq_true.mp hk2
        exact ⟨m, mergeLinks_mem_mono rest all m hm, by simpa using hmh⟩
    · exact ih _ href ⟨l, hl, hlh⟩

/-- Claim C4 (amended).  The link-discovery strategies are a tiered
fallback, not an unconditional merge: when the analysis strategy yields
candidates, the discovery result does not depend on the regular-DOM or
shadow-selector results at all; only the custom-element
(structured-attribute) strategy runs unconditionally, and every href it
reports is present in the merged candidate set. -/
theorem discovery_tiered_fallback (page : ArticlePage) :
    (patternCandidates page.analysis ≠ [] →
      ∀ reg sh, discoverLinks { page with regular := reg, shadow := sh } =
        discoverLinks page) ∧
    (∀ href, (∃ l ∈ page.custom, getHref l = some href) →
      ∃ c ∈ discoverLinks page, getHref c = some href) := by
  constructor
  · intro hne reg sh
    have hsel : ∀ r s, selectPatternLinks { page with regular := r, shadow := s } =
        patternCandidates page.analysis := by
      intro r s
      rw [selectPatternLinks]
      exact if_neg (by simpa using hne)
    rw [discoverLinks, discoverLinks, hsel reg sh]
    have : selectPatternLinks page = patternCandidates page.analysis := by
      rw [selectPatternLinks]
      exact if_neg (by simpa using hne)
    rw [this]
  · intro href h
    exact mergeLinks_custom_href page.custom (selectPatternLinks page) href h

/-- Base page for the claim C4 witness. -/
def pageC4base : ArticlePage where
  analysis := [⟨some "https://x/a.pdf", false⟩]
  regular := []
  shadow := []
  custom := [.dictLink (some "https://x/c.pdf")]

/-- Witness for the amended claim C4: adding regular-DOM and shadow results
to a page whose analysis strategy already found a candidate does not change
the discovery result, and the custom href is in the merged set. -/
theorem discovery_tiered_fallback_witness :
    discoverLinks { pageC4base with
        regular := [.elemLink (some "https://x/r.pdf")],
        shadow := [[.elemLink (some "https://x/s.pdf")]] } =
      discoverLinks pageC4base ∧
    ∃ c ∈ discoverLinks pageC4base, getHref c = some "https://x/c.pdf" :=
  ⟨(discovery_tiered_fallback pageC4base).1 (by decide)
      [.elemLink (some "https://x/r.pdf")] [[.elemLink (some "https://x/s.pdf")]],
   (discovery_tiered_fallback pageC4base).2 "https://x/c.pdf"
      ⟨.dictLink (some "https://x/c.pdf"), by decide, rfl⟩⟩

/-- Claim C5 counterexample: a link that carries the explicit download
marker but whose href does not end in `.pdf` enters the candidate set
through the strategy filter (line 751), yet the final gate (line 811) never
passes it to `download_pdf` — the marker alone does not suffice for the
fetch. -/
theorem download_marker_not_sufficient :
    patternCandidates [⟨some "https://x/dl", true⟩] =
      [.dictLink (some "https://x/dl")] ∧
    acceptedForDownload (.dictLink (some "https://x/dl")) = false ∧
    fetchedLinks [.dictLink (some "https://x/dl")] = [] := by
  refine ⟨by decide, by decide, by decide⟩

theorem acceptedForDownload_eq_true (l : PdfLink) :
    acceptedForDownload l = true ↔
      ∃ h, getHref l = some h ∧ strEndsWith (strToLower h) ".pdf" = true := by
  rw [acceptedForDownload]
  rcases hg : getHref l with _ | h
  · simp
  · simp

/-- Claim C5 (amended).  A candidate in the merged set is passed to
`download_pdf` if and only if its href is present and ends in `.pdf` after
lowercasing; the explicit download marker influences only the strategy
filters that build the candidate set, not the final fetch decision. -/
theorem fetched_iff_pdf_suffix (links : List PdfLink) (l : PdfLink) :
    l ∈ fetchedLinks links ↔
      l ∈ links ∧ ∃ h, getHref l = some h ∧
        strEndsWith (strToLower h) ".pdf" = true := by
  rw [fetchedLinks, List.mem_filter, acceptedForDownload_eq_true]

/-- Witness for the amended claim C5: an upper-case `.PDF` href is fetched
(case-insensitive suffix check). -/
theorem fetched_iff_pdf_suffix_witness :
    PdfLink.dictLink (some "https://x/B.PDF") ∈
      fetchedLinks [PdfLink.dictLink (some "https://x/B.PDF")] :=
  (fetched_iff_pdf_suffix [PdfLink.dictLink (some "https://x/B.PDF")]
      (PdfLink.dictLink (some "https://x/B.PDF"))).mpr
    ⟨by decide, "https://x/B.PDF", rfl, by decide⟩

/-! ### The encapsulated-tree locator: `findInChildren`
(shadow_scraper.py lines 146-192) -/

/-- Boundary graph on which the traversal runs.  Nodes are identified by
numbers; `shadow n` is the shadow root attached to `n` (if any), `desc n`
the result of `n.querySelectorAll('*')`, and `qsel r` the result of
`r.querySelectorAll(selector)` within the subtree rooted at `r`.  Shared or
re-referenced boundary nodes are allowed: nothing forces `desc` to describe
a tree or `shadow` to be injective. -/
structure ShadowDom where
  univ : Finset Nat
  shadow : Nat → Option Nat
  desc : Nat → List Nat
  qsel : Nat → List Nat

/-- Closure of the finite node universe under the two ways the traversal
moves: into a shadow root and into an enumerated descendant. -/
def ShadowDom.Closed (g : ShadowDom) : Prop :=
  (∀ n ∈ g.univ, ∀ m, g.shadow n = some m → m ∈ g.univ) ∧
  (∀ n ∈ g.univ, ∀ c ∈ g.desc n, c ∈ g.univ)

/-- The two mutable variables of the script: `visited` (a set keyed by node
identity, modelled as the list of nodes in visiting order) and `elements`
(the collected matches). -/
structure TravSt where
  visited : List Nat
  elements : List Nat

/-- The `for (const child of node.querySelectorAll('*'))` loop of lines
173-178: recurse into every enumerated child that owns a shadow root. -/
def goChildren (f : Nat → TravSt → TravSt) (g : ShadowDom) :
    List Nat → TravSt → TravSt
  | [], s => s
  | c :: cs, s =>
    goChildren f g cs (if (g.shadow c).isSome then f c s else s)

/-- The recursive `findInChildren` of lines 156-179, with a fuel argument
bounding the recursion depth (the stabilization theorem shows the result is
fuel-independent once the fuel exceeds the number of nodes): return when the
node was already visited, otherwise mark it visited; if it owns a shadow
root, push the root's query matches and recurse into the root; finally
recurse into every child owning a shadow root. -/
def findInChildren (g : ShadowDom) : Nat → Nat → TravSt → TravSt
  | 0, _, s => s
  | fuel + 1, node, s =>
    if node ∈ s.visited then s
    else
      goChildren (findInChildren g fuel) g (g.desc node)
        (match g.shadow node with
         | some sr =>
           findInChildren g fuel sr
             ⟨node :: s.visited, s.elements ++ g.qsel sr⟩
         | none => ⟨node :: s.visited, s.elements⟩)

/-- Entry point of `find_elements_in_all_shadow_roots`: run the traversal
from the document with empty state and return the collected elements. -/
def find_elements_in_all_shadow_roots (g : ShadowDom) (doc : Nat) : List Nat :=
  (findInChildren g (g.univ.card + 1) doc ⟨[], []⟩).elements

theorem goChildren_nil (f : Nat → TravSt → TravSt) (g : ShadowDom) (s : TravSt) :
    goChildren f g [] s = s := rfl

theorem goChildren_cons (f : Nat → TravSt → TravSt) (g : ShadowDom)
    (c : Nat) (cs : List Nat) (s : TravSt) :
    goChildren f g (c :: cs) s =
      goChildren f g cs (if (g.shadow c).isSome then f c s else s) := rfl

theorem findInChildren_zero (g : ShadowDom) (node : Nat) (s : TravSt) :
    findInChildren g 0 node s = s := rfl

theorem findInChildren_succ_visited (g : ShadowDom) (fuel node : Nat) (s : TravSt)
    (h : node ∈ s.visited) :
    findInChildren g (fuel + 1) node s = s := by
  rw [findInChildren]
  exact if_pos h

theorem findInChildren_succ_shadow (g : ShadowDom) (fuel node sr : Nat) (s : TravSt)
    (h : node ∉ s.visited) (hsh : g.shadow node = some sr) :
    findInChildren g (fuel + 1) node s =
      goChildren (findInChildren g fuel) g (g.desc node)
        (findInChildren g fuel sr ⟨node :: s.visited, s.elements ++ g.qsel sr⟩) := by
  rw [findInChildren, if_neg h, hsh]

theorem findInChildren_succ_noshadow (g : ShadowDom) (fuel node : Nat) (s : TravSt)
    (h : node ∉ s.visited) (hsh : g.shadow node = none) :
    findInChildren g (fuel + 1) node s =
      goChildren (findInChildren g fuel) g (g.desc node)
        ⟨node :: s.visited, s.elements⟩ := by
  rw [findInChildren, if_neg h, hsh]

/-- State extension: the visited list only grows (preserving freedom from
duplicates) and the element list is only appended to. -/
def Ext (s t : TravSt) : Prop :=
  (∀ x ∈ s.visited, x ∈ t.visited) ∧
  (s.visited.Nodup → t.visited.Nodup) ∧
  ∃ es, t.elements = s.elements ++ es

theorem ext_refl (s : TravSt) : Ext s s :=
  ⟨fun _ h => h, id, ⟨[], by simp⟩⟩

theorem ext_trans {s t u : TravSt} (h1 : Ext s t) (h2 : Ext t u) : Ext s u := by
  obtain ⟨v1, n1, es1, he1⟩ := h1
  obtain ⟨v2, n2, es2, he2⟩ := h2
  exact ⟨fun x hx => v2 x (v1 x hx), fun nd => n2 (n1 nd),
    ⟨es1 ++ es2, by rw [he2, he1, List.append_assoc]⟩⟩

theorem goChildren_ext (f : Nat → TravSt → TravSt) (g : ShadowDom)
    (hf : ∀ c s, Ext s (f c s)) :
    ∀ cs s, Ext s (goChildren f g cs s) := by
  intro cs
  induction cs with
  | nil => intro s; exact ext_refl s
  | cons c cs ih =>
    intro s
    rw [goChildren_cons]
    by_cases hc : (g.shadow c).isSome
    · rw [if_pos hc]
      exact ext_trans (hf c s) (ih _)
    · rw [if_neg hc]
      exact ih s

theorem findInChildren_ext (g : ShadowDom) :
    ∀ fuel node s, Ext s (findInChildren g fuel node s) := by
  intro fuel
  induction fuel with
  | zero => intro node s; exact ext_refl s
  | succ fuel ih =>
    intro node s
    by_cases h : node ∈ s.visited
    · rw [findInChildren_succ_visited g fuel node s h]
      exact ext_refl s
    · have hcons : ∀ es', Ext s ⟨node :: s.visited, s.elements ++ es'⟩ := by
        intro es'
        exact ⟨fun x hx => List.mem_cons_of_mem node hx,
          fun nd => List.nodup_cons.mpr ⟨h, nd⟩, ⟨es', rfl⟩⟩
      rcases hsh : g.shadow node with _ | sr
      · rw [findInChildren_succ_noshadow g fuel node s h hsh]
        refine ext_trans ?_ (goChildren_ext _ g (fun c s => ih c s) _ _)
        simpa using hcons []
      · rw [findInChildren_succ_shadow g fuel node sr s h hsh]
        refine ext_trans (hcons (g.qsel sr)) (ext_trans (ih sr _)
          (goChildren_ext _ g (fun c s => ih c s) _ _))

/-- Number of universe nodes not yet visited: the decreasing measure of the
traversal. -/
def gap (g : ShadowDom) (s : TravSt) : Nat :=
  (g.univ \ s.visited.toFinset).card

theorem gap_lt_of_cons (g : ShadowDom) (node : Nat) (s : TravSt) (es : List Nat)
    (hu : node ∈ g.univ) (hv : node ∉ s.visited) :
    gap g ⟨node :: s.visited, es⟩ < gap g s := by
  apply Finset.card_lt_card
  constructor
  · refine Finset.sdiff_subset_sdiff (Finset.Subset.refl _) ?_
    intro x hx
    simp only [List.toFinset_cons, Finset.mem_insert]
    exact Or.inr (by simpa using hx)
  · intro hsub
    have hnode : node ∈ g.univ \ s.visited.toFinset := by
      simp only [Finset.mem_sdiff, List.mem_toFinset]
      exact ⟨hu, hv⟩
    have := hsub hnode
    simp [List.toFinset_cons] at this

theorem gap_le_of_ext (g : ShadowDom) {s t : TravSt} (h : Ext s t) :
    gap g t ≤ gap g s := by
  apply Finset.card_le_card
  refine Finset.sdiff_subset_sdiff (Finset.Subset.refl _) ?_
  intro x hx
  simp only [List.mem_toFinset] at hx ⊢
  exact h.1 x hx

theorem findInChildren_stable (g : ShadowDom) (hcl : g.Closed) :
    ∀ n : Nat, ∀ s fuel₁ fuel₂ node, gap g s = n → node ∈ g.univ →
      gap g s < fuel₁ → gap g s < fuel₂ →
      findInChildren g fuel₁ node s = findInChildren g fuel₂ node s := by
  intro n
  induction n using Nat.strong_induction_on with
  | _ n ih =>
    intro s fuel₁ fuel₂ node hn hu h1 h2
    obtain ⟨f₁, rfl⟩ : ∃ f, fuel₁ = f + 1 := ⟨fuel₁ - 1, by omega⟩
    obtain ⟨f₂, rfl⟩ : ∃ f, fuel₂ = f + 1 := ⟨fuel₂ - 1, by omega⟩
    by_cases hv : node ∈ s.visited
    · rw [findInChildren_succ_visited _ _ _ _ hv,
        findInChildren_succ_visited _ _ _ _ hv]
    · have aux : ∀ cs s', (∀ c ∈ cs, c ∈ g.univ) → gap g s' < n →
          goChildren (findInChildren g f₁) g cs s' =
            goChildren (findInChildren g f₂) g cs s' := by
        intro cs
        induction cs with
        | nil => intro s' _ _; rfl
        | cons c cs ihc =>
          intro s' hcu hgap
          rw [goChildren_cons, goChildren_cons]
          by_cases hc : (g.shadow c).isSome
          · rw [if_pos hc, if_pos hc]
            have heq : findInChildren g f₁ c s' = findInChildren g f₂ c s' := by
              apply ih (gap g s') hgap s' f₁ f₂ c rfl
                (hcu c (List.mem_cons_self c cs))
              · omega
              · omega
            rw [heq]
            exact ihc _ (fun c' hc' => hcu c' (List.mem_cons_of_mem c hc'))
              (lt_of_le_of_lt (gap_le_of_ext g (findInChildren_ext g f₂ c s')) hgap)
          · rw [if_neg hc, if_neg hc]
            exact ihc s' (fun c' hc' => hcu c' (List.mem_cons_of_mem c hc')) hgap
      have hchild : ∀ c ∈ g.desc node, c ∈ g.univ := hcl.2 node hu
      rcases hsh : g.shadow node with _ | sr
      · rw [findInChildren_succ_noshadow _ f₁ _ _ hv hsh,
          findInChildren_succ_noshadow _ f₂ _ _ hv hsh]
        apply aux _ _ hchild
        have := gap_lt_of_cons g node s s.elements hu hv
        omega
      · rw [findInChildren_succ_shadow _ f₁ _ sr _ hv hsh,
          findInChildren_succ_shadow _ f₂ _ sr _ hv hsh]
        have hlt := gap_lt_of_cons g node s (s.elements ++ g.qsel sr) hu hv
        have hsr : sr ∈ g.univ := hcl.1 node hu sr hsh
        have heq2 : findInChildren g f₁ sr
              ⟨node :: s.visited, s.elements ++ g.qsel sr⟩ =
            findInChildren g f₂ sr
              ⟨node :: s.visited, s.elements ++ g.qsel sr⟩ := by
          apply ih (gap g ⟨node :: s.visited, s.elements ++ g.qsel sr⟩)
            (by omega) _ f₁ f₂ sr rfl hsr
          · omega
          · omega
        rw [heq2]
        apply aux _ _ hchild
        calc gap g (findInChildren g f₂ sr
              ⟨node :: s.visited, s.elements ++ g.qsel sr⟩)
            ≤ gap g ⟨node :: s.visited, s.elements ++ g.qsel sr⟩ :=
              gap_le_of_ext g (findInChildren_ext g f₂ sr _)
          _ < n := by omega

/-- Claim C2.  For every finite boundary graph — shared and re-referenced
boundary nodes allowed — the traversal visits each boundary root at most
once (the identity-keyed visited list never acquires a duplicate) and
terminates: as soon as the fuel exceeds the number of nodes the result has
stabilized, so the recursion needs only finitely many steps. -/
theorem traversal_terminates (g : ShadowDom) (hcl : g.Closed) (doc : Nat)
    (hdoc : doc ∈ g.univ) :
    (∀ fuel, g.univ.card + 1 ≤ fuel →
      findInChildren g fuel doc ⟨[], []⟩ =
        findInChildren g (g.univ.card + 1) doc ⟨[], []⟩) ∧
    (∀ fuel, (findInChildren g fuel doc ⟨[], []⟩).visited.Nodup) := by
  have hgap : gap g ⟨[], []⟩ = g.univ.card := by
    simp [gap]
  constructor
  · intro fuel hf
    exact findInChildren_stable g hcl (gap g ⟨[], []⟩) ⟨[], []⟩ fuel
      (g.univ.card + 1) doc rfl hdoc (by omega) (by omega)
  · intro fuel
    exact (findInChildren_ext g fuel doc ⟨[], []⟩).2.1 List.nodup_nil

/-- Boundary graph with a shared boundary root: hosts 1 and 2 both expose
node 3 as their shadow root. -/
def gShared : ShadowDom where
  univ := {0, 1, 2, 3}
  shadow := fun n => if n = 1 then some 3 else if n = 2 then some 3 else none
  desc := fun n => if n = 0 then [1, 2] else []
  qsel := fun n => if n = 3 then [7] else []

theorem gShared_closed : gShared.Closed := by
  constructor
  · intro n hn m hm
    by_cases h1 : n = 1
    · subst h1
      simp [gShared] at hm
      simp [gShared, ← hm]
    · by_cases h2 : n = 2
      · subst h2
        simp [gShared] at hm
        simp [gShared, ← hm]
      · simp [gShared, h1, h2] at hm
  · intro n hn c hc
    by_cases h0 : n = 0
    · subst h0
      simp [gShared] at hc
      rcases hc with rfl | rfl
      · decide
      · decide
    · simp [gShared, h0] at hc

/-- Witness for claim C2 on the shared-boundary graph: with ample fuel the
run equals the canonical run, and the visited list has no duplicates. -/
theorem traversal_terminates_witness :
    findInChildren gShared 100 0 ⟨[], []⟩ =
      findInChildren gShared (gShared.univ.card + 1) 0 ⟨[], []⟩ ∧
    (findInChildren gShared 100 0 ⟨[], []⟩).visited.Nodup :=
  ⟨(traversal_terminates gShared gShared_closed 0 (by decide)).1 100 (by decide),
   (traversal_terminates gShared gShared_closed 0 (by decide)).2 100⟩

/-- Boundary graph for the claim C6 counterexample: no shadow roots at all;
element 1 matches the selector directly inside the plain document (zero
boundaries): `document.querySelectorAll(selector)` would return it. -/
def gZero : ShadowDom where
  univ := {0, 1}
  shadow := fun _ => none
  desc := fun n => if n = 0 then [1] else []
  qsel := fun n => if n = 0 then [1] else []

/-- Claim C6 counterexample: the locator never queries the selector against
the plain document itself — `node.shadowRoot.querySelectorAll` is its only
query — so a matching element reachable through zero encapsulation
boundaries is not returned. -/
theorem zero_boundary_matches_missed :
    find_elements_in_all_shadow_roots gZero 0 = [] ∧ gZero.qsel 0 = [1] :=
  ⟨rfl, rfl⟩

/-- Contexts the traversal can reach from the root: the root itself, the
shadow root of any reached node, and any enumerated descendant of a reached
node that hosts a shadow root. -/
inductive Reach (g : ShadowDom) (doc : Nat) : Nat → Prop where
  | root : Reach g doc doc
  | intoShadow : ∀ {n sr}, Reach g doc n → g.shadow n = some sr → Reach g doc sr
  | intoHost : ∀ {n c}, Reach g doc n → c ∈ g.desc n → (g.shadow c).isSome →
      Reach g doc c

theorem ext_mem_vis {s t : TravSt} (h : Ext s t) {x : Nat}
    (hx : x ∈ s.visited) : x ∈ t.visited := h.1 x hx

theorem ext_mem_elem {s t : TravSt} (h : Ext s t) {x : Nat}
    (hx : x ∈ s.elements) : x ∈ t.elements := by
  obtain ⟨es, he⟩ := h.2.2
  rw [he]
  exact List.mem_append_left _ hx

/-- Soundness invariant: every visited node is reachable and every
collected element is a query match inside the shadow root of a reachable
host. -/
def SoundSt (g : ShadowDom) (doc : Nat) (s : TravSt) : Prop :=
  (∀ v ∈ s.visited, Reach g doc v) ∧
  (∀ e ∈ s.elements, ∃ h sr, Reach g doc h ∧ g.shadow h = some sr ∧ e ∈ g.qsel sr)

theorem goChildren_sound (g : ShadowDom) (doc : Nat) (f : Nat → TravSt → TravSt)
    (hf : ∀ c s', Reach g doc c → SoundSt g doc s' → SoundSt g doc (f c s')) :
    ∀ cs s', (∀ c ∈ cs, (g.shadow c).isSome → Reach g doc c) →
      SoundSt g doc s' → SoundSt g doc (goChildren f g cs s') := by
  intro cs
  induction cs with
  | nil => intro s' _ hs; exact hs
  | cons c cs ih =>
    intro s' hr hs
    rw [goChildren_cons]
    by_cases hc : (g.shadow c).isSome
    · rw [if_pos hc]
      exact ih _ (fun c' hc' => hr c' (List.mem_cons_of_mem c hc'))
        (hf c s' (hr c (List.mem_cons_self c cs) hc) hs)
    · rw [if_neg hc]
      exact ih _ (fun c' hc' => hr c' (List.mem_cons_of_mem c hc')) hs

theorem findInChildren_sound (g : ShadowDom) (doc : Nat) :
    ∀ fuel node s, Reach g doc node → SoundSt g doc s →
      SoundSt g doc (findInChildren g fuel node s) := by
  intro fuel
  induction fuel with
  | zero => intro node s _ hs; exact hs
  | succ fuel ih =>
    intro node s hr hs
    by_cases hv : node ∈ s.visited
    · rw [findInChildren_succ_visited g fuel node s hv]
      exact hs
    · have hchild : ∀ c ∈ g.desc node, (g.shadow c).isSome → Reach g doc c :=
        fun c hc hcs => Reach.intoHost hr hc hcs
      rcases hsh : g.shadow node with _ | sr
      · rw [findInChildren_succ_noshadow g fuel node s hv hsh]
        refine goChildren_sound g doc _ (fun c s' hrc hs' => ih c s' hrc hs')
          _ _ hchild ?_
        exact ⟨fun v hvv => by
            rcases List.mem_cons.mp hvv with rfl | hvv
            · exact hr
            · exact hs.1 v hvv,
          hs.2⟩
      · rw [findInChildren_succ_shadow g fuel node sr s hv hsh]
        refine goChildren_sound g doc _ (fun c s' hrc hs' => ih c s' hrc hs')
          _ _ hchild ?_
        refine ih sr _ (Reach.intoShadow hr hsh) ?_
        constructor
        · intro v hvv
          rcases List.mem_cons.mp hvv with rfl | hvv
          · exact hr
          · exact hs.1 v hvv
        · intro e he
          rcases List.mem_append.mp he with he | he
          · exact hs.2 e he
          · exact ⟨node, sr, hr, hsh, he⟩

/-- Invariant for freedom from duplicates: the collected elements are
distinct, and each one is a query match inside the shadow root of an
already-visited host. -/
def NodupSt (g : ShadowDom) (s : TravSt) : Prop :=
  s.elements.Nodup ∧
  ∀ e ∈ s.elements, ∃ h sr, h ∈ s.visited ∧ g.shadow h = some sr ∧ e ∈ g.qsel sr

theorem goChildren_nodupSt (g : ShadowDom) (f : Nat → TravSt → TravSt)
    (hf : ∀ c s', NodupSt g s' → NodupSt g (f c s')) :
    ∀ cs s', NodupSt g s' → NodupSt g (goChildren f g cs s') := by
  intro cs
  induction cs with
  | nil => intro s' hs; exact hs
  | cons c cs ih =>
    intro s' hs
    rw [goChildren_cons]
    by_cases hc : (g.shadow c).isSome
    · rw [if_pos hc]
      exact ih _ (hf c s' hs)
    · rw [if_neg hc]
      exact ih _ hs

theorem findInChildren_nodupSt (g : ShadowDom)
    (hq1 : ∀ r, (g.qsel r).Nodup)
    (hq2 : ∀ r₁ r₂, r₁ ≠ r₂ → ∀ e ∈ g.qsel r₁, e ∉ g.qsel r₂)
    (hinj : ∀ a b sr, g.shadow a = some sr → g.shadow b = some sr → a = b) :
    ∀ fuel node s, NodupSt g s → NodupSt g (findInChildren g fuel node s) := by
  intro fuel
  induction fuel with
  | zero => intro node s hs; exact hs
  | succ fuel ih =>
    intro node s hs
    by_cases hv : node ∈ s.visited
    · rw [findInChildren_succ_visited g fuel node s hv]
      exact hs
    · rcases hsh : g.shadow node with _ | sr
      · rw [findInChildren_succ_noshadow g fuel node s hv hsh]
        refine goChildren_nodupSt g _ (fun c s' hs' => ih c s' hs') _ _ ?_
        exact ⟨hs.1, fun e he =>
          let ⟨h, sr', hh, hsr, hq⟩ := hs.2 e he
          ⟨h, sr', List.mem_cons_of_mem node hh, hsr, hq⟩⟩
      · rw [findInChildren_succ_shadow g fuel node sr s hv hsh]
        refine goChildren_nodupSt g _ (fun c s' hs' => ih c s' hs') _ _ ?_
        refine ih sr _ ?_
        constructor
        · refine List.Nodup.append hs.1 (hq1 sr) ?_
          intro x hx hx2
          obtain ⟨h, sr', hh, hsr', hq⟩ := hs.2 x hx
          by_cases hss : sr' = sr
          · subst hss
            exact hv (hinj h node sr' hsr' hsh ▸ hh)
          · exact hq2 sr' sr hss x hq hx2
        · intro e he
          rcases List.mem_append.mp he with he | he
          · obtain ⟨h, sr', hh, hsr', hq⟩ := hs.2 e he
            exact ⟨h, sr', List.mem_cons_of_mem node hh, hsr', hq⟩
          · exact ⟨node, sr, List.mem_cons_self node s.visited, hsh, he⟩

theorem findInChildren_complete (g : ShadowDom) (hcl : g.Closed) :
    ∀ fuel node s, gap g s < fuel → node ∈ g.univ →
      node ∈ (findInChildren g fuel node s).visited ∧
      (∀ v, v ∈ (findInChildren g fuel node s).visited → v ∉ s.visited →
        (∀ sr, g.shadow v = some sr →
          sr ∈ (findInChildren g fuel node s).visited ∧
          ∀ e ∈ g.qsel sr, e ∈ (findInChildren g fuel node s).elements) ∧
        (∀ c ∈ g.desc v, (g.shadow c).isSome →
          c ∈ (findInChildren g fuel node s).visited)) := by
  intro fuel
  induction fuel with
  | zero => intro node s hgap _; omega
  | succ f ih =>
    intro node s hgap hu
    by_cases hv : node ∈ s.visited
    · rw [findInChildren_succ_visited g f node s hv]
      exact ⟨hv, fun v hv1 hv2 => absurd hv1 hv2⟩
    · have hgap1 : 1 ≤ gap g s := by
        have hmem : node ∈ g.univ \ s.visited.toFinset := by
          simp only [Finset.mem_sdiff, List.mem_toFinset]
          exact ⟨hu, hv⟩
        exact Finset.card_pos.mpr ⟨node, hmem⟩
      have aux : ∀ cs s', (∀ c ∈ cs, c ∈ g.univ) → gap g s' < f →
          (∀ c ∈ cs, (g.shadow c).isSome →
            c ∈ (goChildren (findInChildren g f) g cs s').visited) ∧
          (∀ v, v ∈ (goChildren (findInChildren g f) g cs s').visited →
            v ∉ s'.visited →
            (∀ sr, g.shadow v = some sr →
              sr ∈ (goChildren (findInChildren g f) g cs s').visited ∧
              ∀ e ∈ g.qsel sr,
                e ∈ (goChildren (findInChildren g f) g cs s').elements) ∧
            (∀ c ∈ g.desc v, (g.shadow c).isSome →
              c ∈ (goChildren (findInChildren g f) g cs s').visited)) := by
        intro cs
        induction cs with
        | nil =>
          intro s' _ _
          refine ⟨fun c hc => absurd hc (by simp), ?_⟩
          intro v hv1 hv2
          rw [goChildren_nil] at hv1
          exact absurd hv1 hv2
        | cons c cs ihc =>
          intro s' hcu hgap'
          rw [goChildren_cons]
          by_cases hcs : (g.shadow c).isSome
          · rw [if_pos hcs]
            have hext2 : Ext (findInChildren g f c s')
                (goChildren (findInChildren g f) g cs (findInChildren g f c s')) :=
              goChildren_ext _ g (fun c' s'' => findInChildren_ext g f c' s'') _ _
            have hih := ih c s' hgap' (hcu c (List.mem_cons_self c cs))
            have hgap'' : gap g (findInChildren g f c s') ≤ gap g s' :=
              gap_le_of_ext g (findInChildren_ext g f c s')
            have hrest := ihc (findInChildren g f c s')
              (fun c' hc' => hcu c' (List.mem_cons_of_mem c hc'))
              (lt_of_le_of_lt hgap'' hgap')
            constructor
            · intro c' hc' hcs'
              rcases List.mem_cons.mp hc' with rfl | hc'
              · exact ext_mem_vis hext2 hih.1
              · exact hrest.1 c' hc' hcs'
            · intro v hv1 hv2
              by_cases hvmid : v ∈ (findInChildren g f c s').visited
              · have hnew := hih.2 v hvmid hv2
                constructor
                · intro sr hsr
                  exact ⟨ext_mem_vis hext2 (hnew.1 sr hsr).1,
                    fun e he => ext_mem_elem hext2 ((hnew.1 sr hsr).2 e he)⟩
                · intro c' hc' hcs'
                  exact ext_mem_vis hext2 (hnew.2 c' hc' hcs')
              · exact hrest.2 v hv1 hvmid
          · rw [if_neg hcs]
            have hrest := ihc s'
              (fun c' hc' => hcu c' (List.mem_cons_of_mem c hc')) hgap'
            constructor
            · intro c' hc' hcs'
              rcases List.mem_cons.mp hc' with rfl | hc'
              · exact absurd hcs' hcs
              · exact hrest.1 c' hc' hcs'
            · exact hrest.2
      have hchild : ∀ c ∈ g.desc node, c ∈ g.univ := hcl.2 node hu
      rcases hsh : g.shadow node with _ | sr
      · rw [findInChildren_succ_noshadow g f node s hv hsh]
        have hg1 : gap g (⟨node :: s.visited, s.elements⟩ : TravSt) < f :=
          lt_of_lt_of_le (gap_lt_of_cons g node s s.elements hu hv)
            (Nat.lt_succ_iff.mp hgap)
        have ha := aux (g.desc node) ⟨node :: s.visited, s.elements⟩ hchild hg1
        have hextg : Ext (⟨node :: s.visited, s.elements⟩ : TravSt)
            (goChildren (findInChildren g f) g (g.desc node)
              ⟨node :: s.visited, s.elements⟩) :=
          goChildren_ext _ g (fun c' s'' => findInChildren_ext g f c' s'') _ _
        constructor
        · exact ext_mem_vis hextg (List.mem_cons_self node s.visited)
        · intro v hv1 hv2
          by_cases hvn : v = node
          · subst hvn
            constructor
            · intro sr hsr
              rw [hsh] at hsr
              exact Option.noConfusion hsr
            · intro c hc hcs
              exact ha.1 c hc hcs
          · have hvs1 : v ∉ (⟨node :: s.visited, s.elements⟩ : TravSt).visited := by
              intro hmem
              rcases List.mem_cons.mp hmem with h | h
              · exact hvn h
              · exact hv2 h
            exact ha.2 v hv1 hvs1
      · rw [findInChildren_succ_shadow g f node sr s hv hsh]
        have hg1 : gap g (⟨node :: s.visited, s.elements ++ g.qsel sr⟩ : TravSt) < f :=
          lt_of_lt_of_le (gap_lt_of_cons g node s (s.elements ++ g.qsel sr) hu hv)
            (Nat.lt_succ_iff.mp hgap)
        have hsr_univ : sr ∈ g.univ := hcl.1 node hu sr hsh
        have hih_sr := ih sr ⟨node :: s.visited, s.elements ++ g.qsel sr⟩ hg1 hsr_univ
        have hext1 : Ext (⟨node :: s.visited, s.elements ++ g.qsel sr⟩ : TravSt)
            (findInChildren g f sr ⟨node :: s.visited, s.elements ++ g.qsel sr⟩) :=
          findInChildren_ext g f sr _
        have hg2 : gap g (findInChildren g f sr
            ⟨node :: s.visited, s.elements ++ g.qsel sr⟩) < f :=
          lt_of_le_of_lt (gap_le_of_ext g hext1) hg1
        have ha := aux (g.desc node)
          (findInChildren g f sr ⟨node :: s.visited, s.elements ++ g.qsel sr⟩)
          hchild hg2
        have hextg : Ext (findInChildren g f sr
              ⟨node :: s.visited, s.elements ++ g.qsel sr⟩)
            (goChildren (findInChildren g f) g (g.desc node)
              (findInChildren g f sr
                ⟨node :: s.visited, s.elements ++ g.qsel sr⟩)) :=
          goChildren_ext _ g (fun c' s'' => findInChildren_ext g f c' s'') _ _
        constructor
        · exact ext_mem_vis hextg (ext_mem_vis hext1
            (List.mem_cons_self node s.visited))
        · intro v hv1 hv2
          by_cases hvn : v = node
          · subst hvn
            constructor
            · intro sr' hsr'
              rw [hsh] at hsr'
              obtain rfl := Option.some_inj.mp hsr'
              refine ⟨ext_mem_vis hextg hih_sr.1, ?_⟩
              intro e he
              have hes : e ∈ (⟨v :: s.visited,
                  s.elements ++ g.qsel sr⟩ : TravSt).elements :=
                List.mem_append_right _ he
              exact ext_mem_elem hextg (ext_mem_elem hext1 hes)
            · intro c hc hcs
              exact ha.1 c hc hcs
          · by_cases hvmid : v ∈ (findInChildren g f sr
                ⟨node :: s.visited, s.elements ++ g.qsel sr⟩).visited
            · have hvs1 : v ∉ (⟨node :: s.visited,
                  s.elements ++ g.qsel sr⟩ : TravSt).visited := by
                intro hmem
                rcases List.mem_cons.mp hmem with h | h
                · exact hvn h
                · exact hv2 h
              have hnew := hih_sr.2 v hvmid hvs1
              constructor
              · intro sr' hsr'
                exact ⟨ext_mem_vis hextg (hnew.1 sr' hsr').1,
                  fun e he => ext_mem_elem hextg ((hnew.1 sr' hsr').2 e he)⟩
              · intro c hc hcs
                exact ext_mem_vis hextg (hnew.2 c hc hcs)
            · exact ha.2 v hv1 hvmid

/-- Claim C6 (amended).  On a closed finite boundary graph whose query
results are duplicate-free and disjoint across distinct roots and whose
shadow roots have unique hosts (all true of a real DOM), the locator
returns exactly the matching elements reachable through **one or more**
encapsulation boundaries — an element `e` is returned iff it is a query
match inside the shadow root of a reachable host — with no duplicates.
Matches inside the plain document itself (zero boundaries) are not
returned. -/
theorem traversal_finds_shadow_matches (g : ShadowDom) (hcl : g.Closed)
    (doc : Nat) (hdoc : doc ∈ g.univ)
    (hq1 : ∀ r, (g.qsel r).Nodup)
    (hq2 : ∀ r₁ r₂, r₁ ≠ r₂ → ∀ e ∈ g.qsel r₁, e ∉ g.qsel r₂)
    (hinj : ∀ a b sr, g.shadow a = some sr → g.shadow b = some sr → a = b) :
    (∀ e, e ∈ find_elements_in_all_shadow_roots g doc ↔
      ∃ h sr, Reach g doc h ∧ g.shadow h = some sr ∧ e ∈ g.qsel sr) ∧
    (find_elements_in_all_shadow_roots g doc).Nodup := by
  have hgap : gap g ⟨[], []⟩ < g.univ.card + 1 := by
    have : gap g ⟨[], []⟩ = g.univ.card := by simp [gap]
    omega
  have hcomp := findInChildren_complete g hcl (g.univ.card + 1) doc ⟨[], []⟩
    hgap hdoc
  constructor
  · intro e
    constructor
    · intro he
      have hs := findInChildren_sound g doc (g.univ.card + 1) doc ⟨[], []⟩
        Reach.root ⟨fun v hv => absurd hv (by simp), fun e he => absurd he (by simp)⟩
      exact hs.2 e he
    · rintro ⟨h, sr, hr, hsh, hq⟩
      have hvis : ∀ v, Reach g doc v →
          v ∈ (findInChildren g (g.univ.card + 1) doc ⟨[], []⟩).visited := by
        intro v hv
        induction hv with
        | root => exact hcomp.1
        | intoShadow hr' hsh' ihv =>
          exact ((hcomp.2 _ ihv (by simp)).1 _ hsh').1
        | intoHost hr' hc' hcs' ihv =>
          exact (hcomp.2 _ ihv (by simp)).2 _ hc' hcs'
      exact ((hcomp.2 h (hvis h hr) (by simp)).1 sr hsh).2 e hq
  · exact (findInChildren_nodupSt g hq1 hq2 hinj (g.univ.card + 1) doc ⟨[], []⟩
      ⟨List.nodup_nil, fun e he => absurd he (by simp)⟩).1

/-- Boundary graph for the claim C6 witness: the document 0 contains host 1
whose shadow root 2 holds the matching element 9. -/
def gC6w : ShadowDom where
  univ := {0, 1, 2}
  shadow := fun n => if n = 1 then some 2 else none
  desc := fun n => if n = 0 then [1] else []
  qsel := fun n => if n = 2 then [9] else []

theorem gC6w_closed : gC6w.Closed := by
  constructor
  · intro n hn m hm
    by_cases h1 : n = 1
    · subst h1
      simp [gC6w] at hm
      simp [gC6w, ← hm]
    · simp [gC6w, h1] at hm
  · intro n hn c hc
    by_cases h0 : n = 0
    · subst h0
      simp [gC6w] at hc
      subst hc
      decide
    · simp [gC6w, h0] at hc

theorem gC6w_qsel_nodup : ∀ r, (gC6w.qsel r).Nodup := by
  intro r
  by_cases h : r = 2
  · simp [gC6w, h]
  · simp [gC6w, h]

theorem gC6w_qsel_disjoint :
    ∀ r₁ r₂, r₁ ≠ r₂ → ∀ e ∈ gC6w.qsel r₁, e ∉ gC6w.qsel r₂ := by
  intro r₁ r₂ hne e he1 he2
  by_cases h1 : r₁ = 2
  · by_cases h2 : r₂ = 2
    · exact hne (h1.trans h2.symm)
    · simp [gC6w, h2] at he2
  · simp [gC6w, h1] at he1

theorem gC6w_shadow_inj :
    ∀ a b sr, gC6w.shadow a = some sr → gC6w.shadow b = some sr → a = b := by
  intro a b sr ha hb
  by_cases h1 : a = 1
  · by_cases h2 : b = 1
    · exact h1.trans h2.symm
    · simp [gC6w, h2] at hb
  · simp [gC6w, h1] at ha

/-- Witness for the amended claim C6: the match inside the nested shadow
root is returned, and the result has no duplicates. -/
theorem traversal_finds_shadow_matches_witness :
    9 ∈ find_elements_in_all_shadow_roots gC6w 0 ∧
    (find_elements_in_all_shadow_roots gC6w 0).Nodup :=
  ⟨((traversal_finds_shadow_matches gC6w gC6w_closed 0 (by decide)
      gC6w_qsel_nodup gC6w_qsel_disjoint gC6w_shadow_inj).1 9).mpr
    ⟨1, 2, Reach.intoHost Reach.root (by decide) (by decide), rfl, by decide⟩,
   (traversal_finds_shadow_matches gC6w gC6w_closed 0 (by decide)
      gC6w_qsel_nodup gC6w_qsel_disjoint gC6w_shadow_inj).2⟩

end DnScrape
